import Mathlib

/-!
Verification development for the search-lab repository.

The search strategies of `src/main.py` (`keyword_search`, `fuzzy_search`,
`rewrite_query`, `semantic_search`) and the documented delete example of
`src/search_interface.py` are embedded as executable Lean functions over
`List Char` (Python strings restricted to their ASCII behaviour) and `ℚ`
(Python floats modelled as exact rationals; `round(x, 3)` is modelled as
rounding half-up at the third decimal).
-/

namespace SearchLab

attribute [local semireducible] Rat.add Rat.mul Rat.inv Rat.sub

/-- Python `str.split()` whitespace characters (ASCII range). -/
def isPySpace (c : Char) : Bool :=
  c == ' ' || c == '\t' || c == '\n' || c == '\r' || c == '\x0b' || c == '\x0c'

/-- Python `str.lower()` on one character (ASCII behaviour). -/
def lowerChar (c : Char) : Char :=
  if 65 ≤ c.toNat ∧ c.toNat ≤ 90 then Char.ofNat (c.toNat + 32) else c

/-- Python `str.lower()` on a whole string. -/
def lowerStr (l : List Char) : List Char := l.map lowerChar

/-- Boolean test that `n` is a leading segment of `h`. -/
def isPrefixB : List Char → List Char → Bool
  | [], _ => true
  | _ :: _, [] => false
  | a :: as, b :: bs => a == b && isPrefixB as bs

/-- Python substring containment `n in h`. -/
def strIn (n : List Char) : List Char → Bool
  | [] => n.isEmpty
  | b :: t => isPrefixB n (b :: t) || strIn n t

/-- Worker for `pysplit`: `acc` holds the (reversed) current word. -/
def pysplitAux (acc : List Char) : List Char → List (List Char)
  | [] => if acc = [] then [] else [acc.reverse]
  | c :: rest =>
    if isPySpace c then
      if acc = [] then pysplitAux [] rest else acc.reverse :: pysplitAux [] rest
    else pysplitAux (c :: acc) rest

/-- Python `str.split()` (split on whitespace runs, dropping empties). -/
def pysplit (l : List Char) : List (List Char) := pysplitAux [] l

/-- Python `" ".join(words)`. -/
def joinSpace : List (List Char) → List Char
  | [] => []
  | [w] => w
  | w :: ws => w ++ ' ' :: joinSpace ws

/-- Python string comparison `a <= b` (lexicographic on code points). -/
def strLeB : List Char → List Char → Bool
  | [], _ => true
  | _ :: _, [] => false
  | a :: as, b :: bs => if a < b then true else if b < a then false else strLeB as bs

/-- Python `round(x, 3)` modelled on exact rationals (half rounds up). -/
def round3 (x : ℚ) : ℚ := ((⌊1000 * x + 1 / 2⌋ : ℤ) : ℚ) / 1000

/-- Stable insertion used by `insSort`: `x` goes in front of the first
element `y` with `le x y`. -/
def insertLe (le : α → α → Bool) (x : α) : List α → List α
  | [] => [x]
  | y :: ys => if le x y then x :: y :: ys else y :: insertLe le x ys

/-- Stable sort with respect to the Boolean comparator `le`; for a total
preorder this computes the same list as Python's stable `sorted`. -/
def insSort (le : α → α → Bool) : List α → List α
  | [] => []
  | x :: xs => insertLe le x (insSort le xs)

/-- One entry of the module-level `PRODUCTS` list of `src/main.py`
(the fields the search code reads or carries through). -/
structure Product where
  id : String
  name : String
  description : String
  price : ℚ
  imageUrl : String
  category : String
  badge : Option String := none
deriving DecidableEq, Repr

/-- The hardcoded `PRODUCTS` list of `src/main.py`. -/
def PRODUCTS : List Product :=
  [ { id := "001", name := "Diamond Solitaire Ring",
      description := "Classic round brilliant diamond set in 18k white gold. Timeless elegance for engagements.",
      price := 4999, imageUrl := "https://images.unsplash.com/photo-1605100804763-247f67b3557e?w=400&h=400&fit=crop",
      category := "Rings" },
    { id := "002", name := "Gold Chain Necklace",
      description := "14k yellow gold Cuban link chain. Bold statement piece for everyday wear.",
      price := 1299, imageUrl := "https://images.unsplash.com/photo-1599643478518-a784e5dc4c8f?w=400&h=400&fit=crop",
      category := "Necklaces" },
    { id := "003", name := "Pearl Drop Earrings",
      description := "Freshwater pearls with sterling silver hooks. Elegant and sophisticated.",
      price := 299, imageUrl := "https://images.unsplash.com/photo-1535632066927-ab7c9ab60908?w=400&h=400&fit=crop",
      category := "Earrings" },
    { id := "004", name := "Silver Tennis Bracelet",
      description := "Sterling silver with cubic zirconia stones. Sparkle for any occasion.",
      price := 449, imageUrl := "https://images.unsplash.com/photo-1611591437281-460bfbe1220a?w=400&h=400&fit=crop",
      category := "Bracelets" },
    { id := "005", name := "Vintage Emerald Ring",
      description := "Art deco inspired emerald ring with diamond accents in platinum setting.",
      price := 3799, imageUrl := "https://images.unsplash.com/photo-1551406483-3731d1997540?w=400&h=400&fit=crop",
      category := "Rings", badge := some "VINTAGE" },
    { id := "006", name := "Rose Gold Pendant",
      description := "Delicate heart-shaped pendant in 14k rose gold with diamond accent.",
      price := 599, imageUrl := "https://images.unsplash.com/photo-1515562141207-7a88fb7ce338?w=400&h=400&fit=crop",
      category := "Necklaces" },
    { id := "007", name := "Sapphire Stud Earrings",
      description := "Blue sapphire studs set in white gold. Deep color, brilliant sparkle.",
      price := 899, imageUrl := "https://images.unsplash.com/photo-1588444650733-d0b6271cfc55?w=400&h=400&fit=crop",
      category := "Earrings" },
    { id := "008", name := "Men's Signet Ring",
      description := "Classic gold signet ring with customizable engraving surface.",
      price := 799, imageUrl := "https://images.unsplash.com/photo-1573408301185-9146fe634ad0?w=400&h=400&fit=crop",
      category := "Rings" } ]

/-- `f"{name} {description} {category}".lower()`, the searchable text of
the keyword and fuzzy strategies. -/
def searchText (p : Product) : List Char :=
  lowerStr (p.name.data ++ ' ' :: p.description.data ++ ' ' :: p.category.data)

/-- A product together with the `"score"` entry the strategies add. -/
structure ScoredProduct where
  product : Product
  score : ℚ
deriving DecidableEq, Repr

/-- Comparator realising `sorted(results, key=lambda x: x["score"], reverse=True)`. -/
def scoreGe (a b : ScoredProduct) : Bool := decide (b.score ≤ a.score)

/-- `matches = sum(1 for kw in keywords if kw in text)` of `keyword_search`. -/
def kwMatches (q : List Char) (p : Product) : Nat :=
  ((pysplit (lowerStr q)).filter (fun kw => strIn kw (searchText p))).length

/-- The result list `keyword_search` builds before sorting (scan order). -/
def keywordCandidates (products : List Product) (q : List Char) : List ScoredProduct :=
  products.filterMap (fun p =>
    if 0 < kwMatches q p then
      some ⟨p, round3 ((kwMatches q p : ℚ) / ((pysplit (lowerStr q)).length : ℚ))⟩
    else none)

/-- `keyword_search` of `src/main.py` (store passed explicitly). -/
def keyword_search (products : List Product) (q : List Char) : List ScoredProduct :=
  insSort scoreGe (keywordCandidates products q)

/-- The 3-character slices `query_lower[i:i+3]` for `i in range(len(query_lower)-2)`. -/
def fuzzySlices (ql : List Char) : List (List Char) :=
  (List.range (ql.length - 2)).map (fun i => (ql.drop i).take 3)

/-- The accumulated fuzzy score before the `min(score, 1.0)` clamp:
0.2 per matching slice position plus 0.3 per matching query word. -/
def fzRaw (ql text : List Char) : ℚ :=
  (2 / 10) * ((fuzzySlices ql).filter (fun sl => strIn sl text)).length
    + (3 / 10) * ((pysplit ql).filter (fun w => strIn w text)).length

/-- The result list `fuzzy_search` builds before sorting (scan order). -/
def fuzzyCandidates (products : List Product) (q : List Char) : List ScoredProduct :=
  products.filterMap (fun p =>
    if 0 < fzRaw (lowerStr q) (searchText p) then
      some ⟨p, round3 (min (fzRaw (lowerStr q) (searchText p)) 1)⟩
    else none)

/-- `fuzzy_search` of `src/main.py` (store passed explicitly). -/
def fuzzy_search (products : List Product) (q : List Char) : List ScoredProduct :=
  insSort scoreGe (fuzzyCandidates products q)

/-- The `expansions` dict of `rewrite_query` (trigger word, expansion string). -/
def expansions : List (List Char × List Char) :=
  [ ("ring".data, "ring jewelry band".data),
    ("necklace".data, "necklace chain pendant jewelry".data),
    ("earring".data, "earrings studs jewelry".data),
    ("bracelet".data, "bracelet bangle jewelry".data),
    ("gold".data, "gold yellow metal luxury".data),
    ("silver".data, "silver sterling white metal".data),
    ("diamond".data, "diamond brilliant sparkle luxury engagement".data),
    ("gift".data, "gift present elegant romantic luxury".data),
    ("wedding".data, "wedding engagement matrimony bridal".data),
    ("vintage".data, "vintage antique classic retro art deco".data) ]

/-- Dict lookup `expansions[word]` guarded by `word in expansions`. -/
def lookupExp (w : List Char) : List (List Char × List Char) → Option (List Char)
  | [] => none
  | tv :: rest => if tv.1 = w then some tv.2 else lookupExp w rest

/-- `expansions[word].split()` when `word` is a trigger, `[]` otherwise. -/
def expandWord (w : List Char) : List (List Char) :=
  match lookupExp w expansions with
  | some v => pysplit v
  | none => []

/-- The working term multiset of `rewrite_query`: original query words
together with the expansion words of every trigger among them (the Python
`set` union, before deduplication). -/
def mergedTerms (q : List Char) : List (List Char) :=
  pysplit (lowerStr q) ++ (pysplit (lowerStr q)).flatMap expandWord

/-- `rewrite_query` of `src/main.py`: `" ".join(sorted(expanded_words))`. -/
def rewrite_query (q : List Char) : List Char :=
  joinSpace (insSort strLeB (mergedTerms q).dedup)

/-- The `associations` dict of `semantic_search` (concept, related terms). -/
def associations : List (List Char × List (List Char)) :=
  [ ("engagement".data, ["ring".data, "diamond".data, "solitaire".data]),
    ("wedding".data, ["ring".data, "gold".data, "band".data]),
    ("gift".data, ["pendant".data, "earrings".data, "bracelet".data]),
    ("luxury".data, ["diamond".data, "gold".data, "platinum".data, "emerald".data, "sapphire".data]),
    ("everyday".data, ["chain".data, "stud".data, "simple".data]),
    ("vintage".data, ["art deco".data, "antique".data, "classic".data]),
    ("romantic".data, ["heart".data, "rose".data, "pendant".data]) ]

/-- `f"{name} {description}".lower()`, the searchable text of `semantic_search`
(note: no category field). -/
def semanticText (p : Product) : List Char :=
  lowerStr (p.name.data ++ ' ' :: p.description.data)

/-- The pre-jitter semantic score: 0.3 per query word found in the text plus
0.15 per related term of each concept occurring in the query that is found
in the text. -/
def semPre (ql text : List Char) : ℚ :=
  (3 / 10) * ((pysplit ql).filter (fun w => strIn w text)).length
    + (15 / 100) * (associations.map (fun ca =>
        if strIn ca.1 ql then ((ca.2.filter (fun r => strIn r text)).length : ℚ) else 0)).sum

/-- The result list `semantic_search` builds before sorting; the per-call
values of `random.uniform(-0.1, 0.1)` are abstracted as a function `jit`
of the product's position in the store. -/
def semanticCandidates (jit : Nat → ℚ) (products : List Product) (q : List Char) :
    List ScoredProduct :=
  products.enum.filterMap (fun ip =>
    if 0 < semPre (lowerStr q) (semanticText ip.2) then
      some ⟨ip.2, round3 (max (1 / 10) (min (semPre (lowerStr q) (semanticText ip.2) + jit ip.1) 1))⟩
    else none)

/-- `semantic_search` of `src/main.py` (store and jitter passed explicitly). -/
def semantic_search (jit : Nat → ℚ) (products : List Product) (q : List Char) :
    List ScoredProduct :=
  insSort scoreGe (semanticCandidates jit products q)

/-- Response of the ranking facade (results, query, count before truncation). -/
structure FacadeResponse where
  results : List ScoredProduct
  query : List Char
  total_hits : Nat
deriving Repr

/-- Modelled from the spec: `SearchEngine.search` in `src/search_interface.py`
is abstract and no facade implementation applying `top_k` exists under `src/`;
following section 4.4 of the spec, the facade runs a strategy over the store,
truncates the ranked list to `top_k` and reports `total_hits` as the number of
matching documents before truncation. -/
def facade_search (strategy : List Char → List ScoredProduct) (q : List Char)
    (top_k : Nat) : FacadeResponse :=
  ⟨(strategy q).take top_k, q, (strategy q).length⟩

/-- The documented example implementation `MySearch.delete` in the docstring of
`src/search_interface.py`: iterate over `doc_ids`, delete each id present in
the dict `_docs`, and count the deletions.  The dict is modelled as an
association list with distinct keys; the result is the final store paired with
the returned count. -/
def deleteDocs (docs : List (String × α)) : List String → List (String × α) × Nat
  | [] => (docs, 0)
  | i :: rest =>
    if docs.any (fun kv => kv.1 == i) then
      let r := deleteDocs (docs.filter (fun kv => kv.1 != i)) rest
      (r.1, r.2 + 1)
    else deleteDocs docs rest

/-! ### Helper lemmas: characters and lowercasing -/

theorem char_toNat_ofNat {n : Nat} (h : n < 55296) : (Char.ofNat n).toNat = n := by
  unfold Char.ofNat
  rw [dif_pos (Or.inl h)]
  rfl

theorem lowerChar_lowerChar (c : Char) : lowerChar (lowerChar c) = lowerChar c := by
  unfold lowerChar
  by_cases h : 65 ≤ c.toNat ∧ c.toNat ≤ 90
  · rw [if_pos h]
    have hv : (Char.ofNat (c.toNat + 32)).toNat = c.toNat + 32 :=
      char_toNat_ofNat (by omega)
    rw [if_neg (by rw [hv]; omega)]
  · rw [if_neg h, if_neg h]

theorem lowerChar_of_mem_lowerStr {c : Char} {l : List Char} (h : c ∈ lowerStr l) :
    lowerChar c = c := by
  rcases List.mem_map.1 h with ⟨d, _, rfl⟩
  exact lowerChar_lowerChar d

theorem lowerChar_of_space {c : Char} (h : isPySpace c = true) : lowerChar c = c := by
  simp only [isPySpace, Bool.or_eq_true, beq_iff_eq] at h
  rcases h with ((((rfl | rfl) | rfl) | rfl) | rfl) | rfl <;> decide

theorem lowerStr_of_all_space {l : List Char} (h : ∀ c ∈ l, isPySpace c = true) :
    lowerStr l = l := by
  unfold lowerStr
  rw [List.map_congr_left (fun c hc => lowerChar_of_space (h c hc))]
  exact List.map_id l

/-! ### Helper lemmas: `round3` -/

theorem round3_mono {x y : ℚ} (h : x ≤ y) : round3 x ≤ round3 y := by
  unfold round3
  have hf : (⌊1000 * x + 1 / 2⌋ : ℤ) ≤ ⌊1000 * y + 1 / 2⌋ :=
    Int.floor_le_floor (by linarith)
  have hq : ((⌊1000 * x + 1 / 2⌋ : ℤ) : ℚ) ≤ ((⌊1000 * y + 1 / 2⌋ : ℤ) : ℚ) :=
    Int.cast_le.2 hf
  exact div_le_div_of_nonneg_right hq (by norm_num) |>.trans_eq rfl

theorem round3_zero : round3 0 = 0 := by decide

theorem round3_nonneg {x : ℚ} (h : 0 ≤ x) : 0 ≤ round3 x :=
  round3_zero ▸ round3_mono h

/-! ### Helper lemmas: the stable sort -/

theorem insertLe_perm (le : α → α → Bool) (x : α) (l : List α) :
    (insertLe le x l).Perm (x :: l) := by
  induction l with
  | nil => exact List.Perm.refl _
  | cons y ys ih =>
    by_cases h : le x y = true
    · simp only [insertLe, if_pos h]
      exact List.Perm.refl _
    · simp only [insertLe, if_neg h]
      exact (ih.cons y).trans (List.Perm.swap x y ys)

theorem insSort_perm (le : α → α → Bool) (l : List α) : (insSort le l).Perm l := by
  induction l with
  | nil => exact List.Perm.refl _
  | cons x xs ih => exact (insertLe_perm le x (insSort le xs)).trans (ih.cons x)

theorem mem_insSort (le : α → α → Bool) {a : α} {l : List α} :
    a ∈ insSort le l ↔ a ∈ l :=
  (insSort_perm le l).mem_iff

theorem pairwise_insertLe {le : α → α → Bool}
    (htot : ∀ a b, le a b = true ∨ le b a = true)
    (htrans : ∀ a b c, le a b = true → le b c = true → le a c = true)
    (x : α) {l : List α} (h : l.Pairwise (fun a b => le a b = true)) :
    (insertLe le x l).Pairwise (fun a b => le a b = true) := by
  induction l with
  | nil => simp [insertLe]
  | cons y ys ih =>
    rcases List.pairwise_cons.1 h with ⟨hy, hys⟩
    by_cases hxy : le x y = true
    · simp only [insertLe, if_pos hxy]
      refine List.pairwise_cons.2 ⟨?_, h⟩
      intro z hz
      rcases List.mem_cons.1 hz with rfl | hz
      · exact hxy
      · exact htrans x y z hxy (hy z hz)
    · simp only [insertLe, if_neg hxy]
      refine List.pairwise_cons.2 ⟨?_, ih hys⟩
      intro z hz
      rcases List.mem_cons.1 ((insertLe_perm le x ys).mem_iff.1 hz) with rfl | hz
      · exact (htot z y).resolve_left hxy
      · exact hy z hz

theorem pairwise_insSort {le : α → α → Bool}
    (htot : ∀ a b, le a b = true ∨ le b a = true)
    (htrans : ∀ a b c, le a b = true → le b c = true → le a c = true)
    (l : List α) : (insSort le l).Pairwise (fun a b => le a b = true) := by
  induction l with
  | nil => simp [insSort]
  | cons x xs ih => exact pairwise_insertLe htot htrans x ih

theorem filter_insertLe_neg (le : α → α → Bool) (p : α → Bool) {x : α}
    (hx : p x = false) (l : List α) :
    (insertLe le x l).filter p = l.filter p := by
  induction l with
  | nil => simp [insertLe, hx]
  | cons y ys ih =>
    by_cases hxy : le x y = true
    · simp [insertLe, hxy, List.filter_cons, hx]
    · simp only [insertLe, if_neg hxy]
      cases hpy : p y <;> simp [List.filter_cons, hpy, ih]

theorem filter_insertLe_pos (le : α → α → Bool) (p : α → Bool) {x : α}
    (hx : p x = true) (hle : ∀ y, p y = true → le x y = true) (l : List α) :
    (insertLe le x l).filter p = x :: l.filter p := by
  induction l with
  | nil => simp [insertLe, hx]
  | cons y ys ih =>
    by_cases hxy : le x y = true
    · simp [insertLe, hxy, List.filter_cons, hx]
    · have hpy : p y = false := by
        cases hpy : p y
        · rfl
        · exact absurd (hle y hpy) hxy
      simp [insertLe, hxy, List.filter_cons, hpy, ih]

theorem filter_insSort (le : α → α → Bool) (p : α → Bool)
    (hp : ∀ x y, p x = true → p y = true → le x y = true) (l : List α) :
    (insSort le l).filter p = l.filter p := by
  induction l with
  | nil => rfl
  | cons x xs ih =>
    show (insertLe le x (insSort le xs)).filter p = (x :: xs).filter p
    cases hx : p x
    · rw [filter_insertLe_neg le p hx, ih]
      simp [List.filter_cons, hx]
    · rw [filter_insertLe_pos le p hx (fun y hy => hp x y hx hy), ih]
      simp [List.filter_cons, hx]

theorem insertLe_map (f : α → β) (leA : α → α → Bool) (leB : β → β → Bool)
    (hc : ∀ a b, leA a b = leB (f a) (f b)) (x : α) (l : List α) :
    (insertLe leA x l).map f = insertLe leB (f x) (l.map f) := by
  induction l with
  | nil => rfl
  | cons y ys ih =>
    by_cases hxy : leA x y = true
    · have h2 : leB (f x) (f y) = true := by rw [← hc]; exact hxy
      simp only [insertLe, if_pos hxy, List.map_cons, if_pos h2]
    · have h2 : ¬leB (f x) (f y) = true := by rw [← hc]; exact hxy
      simp only [insertLe, if_neg hxy, List.map_cons, if_neg h2, ih]

theorem insSort_map (f : α → β) (leA : α → α → Bool) (leB : β → β → Bool)
    (hc : ∀ a b, leA a b = leB (f a) (f b)) (l : List α) :
    (insSort leA l).map f = insSort leB (l.map f) := by
  induction l with
  | nil => rfl
  | cons x xs ih =>
    show (insertLe leA x (insSort leA xs)).map f = insertLe leB (f x) (insSort leB (xs.map f))
    rw [insertLe_map f leA leB hc, ih]

theorem sorted_nodup_eq {le : α → α → Bool}
    (hanti : ∀ a b, le a b = true → le b a = true → a = b) :
    ∀ (l₁ l₂ : List α), l₁.Pairwise (fun a b => le a b = true) →
      l₂.Pairwise (fun a b => le a b = true) → l₁.Nodup → l₂.Nodup →
      (∀ a, a ∈ l₁ ↔ a ∈ l₂) → l₁ = l₂ := by
  intro l₁
  induction l₁ with
  | nil =>
    intro l₂ _ _ _ _ hm
    cases l₂ with
    | nil => rfl
    | cons y ys => exact absurd ((hm y).2 (List.mem_cons_self y ys)) (List.not_mem_nil y)
  | cons x xs ih =>
    intro l₂ h₁ h₂ hn₁ hn₂ hm
    cases l₂ with
    | nil => exact absurd ((hm x).1 (List.mem_cons_self x xs)) (List.not_mem_nil x)
    | cons y ys =>
      rcases List.pairwise_cons.1 h₁ with ⟨hx, hxs⟩
      rcases List.pairwise_cons.1 h₂ with ⟨hy, hys⟩
      rcases List.nodup_cons.1 hn₁ with ⟨hnx, hnxs⟩
      rcases List.nodup_cons.1 hn₂ with ⟨hny, hnys⟩
      have hxy : x = y := by
        rcases List.mem_cons.1 ((hm x).1 (List.mem_cons_self x xs)) with h | h
        · exact h
        · rcases List.mem_cons.1 ((hm y).2 (List.mem_cons_self y ys)) with h' | h'
          · exact h'.symm
          · exact hanti x y (hx y h') (hy x h)
      subst hxy
      have htl : ∀ a, a ∈ xs ↔ a ∈ ys := by
        intro a
        constructor
        · intro ha
          rcases List.mem_cons.1 ((hm a).1 (List.mem_cons_of_mem x ha)) with rfl | h
          · exact absurd ha hnx
          · exact h
        · intro ha
          rcases List.mem_cons.1 ((hm a).2 (List.mem_cons_of_mem x ha)) with rfl | h
          · exact absurd ha hny
          · exact h
      rw [ih ys hxs hys hnxs hnys htl]

/-! ### Helper lemmas: the lexicographic string order -/

theorem strLeB_total : ∀ l₁ l₂ : List Char, strLeB l₁ l₂ = true ∨ strLeB l₂ l₁ = true := by
  intro l₁
  induction l₁ with
  | nil => intro l₂; exact Or.inl rfl
  | cons a as ih =>
    intro l₂
    cases l₂ with
    | nil => exact Or.inr rfl
    | cons b bs =>
      rcases lt_trichotomy a b with h | h | h
      · left; simp [strLeB, h]
      · subst h
        rcases ih bs with h' | h'
        · left; simp [strLeB, lt_irrefl, h']
        · right; simp [strLeB, lt_irrefl, h']
      · right; simp [strLeB, h]

theorem strLeB_trans : ∀ l₁ l₂ l₃ : List Char,
    strLeB l₁ l₂ = true → strLeB l₂ l₃ = true → strLeB l₁ l₃ = true := by
  intro l₁
  induction l₁ with
  | nil => intro l₂ l₃ _ _; rfl
  | cons a as ih =>
    intro l₂ l₃ h12 h23
    cases l₂ with
    | nil => simp [strLeB] at h12
    | cons b bs =>
      cases l₃ with
      | nil => simp [strLeB] at h23
      | cons c cs =>
        rcases lt_trichotomy a b with hab | hab | hab
        · rcases lt_trichotomy b c with hbc | hbc | hbc
          · simp [strLeB, hab.trans hbc]
          · subst hbc; simp [strLeB, hab]
          · simp [strLeB, hbc, not_lt_of_gt hbc] at h23
        · subst hab
          rcases lt_trichotomy a c with hac | hac | hac
          · simp [strLeB, hac]
          · subst hac
            simp only [strLeB, if_neg (lt_irrefl a)] at h12 h23 ⊢
            exact ih bs cs h12 h23
          · simp [strLeB, hac, not_lt_of_gt hac] at h23
        · simp [strLeB, hab, not_lt_of_gt hab] at h12

theorem strLeB_antisymm : ∀ l₁ l₂ : List Char,
    strLeB l₁ l₂ = true → strLeB l₂ l₁ = true → l₁ = l₂ := by
  intro l₁
  induction l₁ with
  | nil =>
    intro l₂ _ h21
    cases l₂ with
    | nil => rfl
    | cons b bs => simp [strLeB] at h21
  | cons a as ih =>
    intro l₂ h12 h21
    cases l₂ with
    | nil => simp [strLeB] at h12
    | cons b bs =>
      rcases lt_trichotomy a b with hab | hab | hab
      · simp [strLeB, hab, not_lt_of_gt hab] at h21
      · subst hab
        simp only [strLeB, if_neg (lt_irrefl a)] at h12 h21
        rw [ih bs h12 h21]
      · simp [strLeB, hab, not_lt_of_gt hab] at h12

/-! ### Helper lemmas: the score comparator -/

theorem scoreGe_total : ∀ a b : ScoredProduct, scoreGe a b = true ∨ scoreGe b a = true := by
  intro a b
  unfold scoreGe
  rcases le_total b.score a.score with h | h
  · left; exact decide_eq_true h
  · right; exact decide_eq_true h

theorem scoreGe_trans : ∀ a b c : ScoredProduct,
    scoreGe a b = true → scoreGe b c = true → scoreGe a c = true := by
  intro a b c hab hbc
  exact decide_eq_true ((of_decide_eq_true hbc).trans (of_decide_eq_true hab))

/-! ### Helper lemmas: Python `split` and `join` -/

theorem pysplitAux_props (l : List Char) :
    ∀ acc : List Char, (∀ c ∈ acc, isPySpace c = false) →
      ∀ w ∈ pysplitAux acc l, w ≠ [] ∧ ∀ c ∈ w, isPySpace c = false ∧ (c ∈ acc ∨ c ∈ l) := by
  induction l with
  | nil =>
    intro acc hacc w hw
    unfold pysplitAux at hw
    by_cases h : acc = []
    · simp [h] at hw
    · rw [if_neg h] at hw
      rcases List.mem_singleton.1 hw with rfl
      refine ⟨by simpa using h, fun c hc => ?_⟩
      have hc' : c ∈ acc := List.mem_reverse.1 hc
      exact ⟨hacc c hc', Or.inl hc'⟩
  | cons d rest ih =>
    intro acc hacc w hw
    unfold pysplitAux at hw
    by_cases hd : isPySpace d = true
    · rw [if_pos hd] at hw
      by_cases h : acc = []
      · rw [if_pos h] at hw
        obtain ⟨h1, h2⟩ := ih [] (by simp) w hw
        refine ⟨h1, fun c hc => ⟨(h2 c hc).1, ?_⟩⟩
        rcases (h2 c hc).2 with hc' | hc'
        · exact absurd hc' (List.not_mem_nil c)
        · exact Or.inr (List.mem_cons_of_mem d hc')
      · rw [if_neg h] at hw
        rcases List.mem_cons.1 hw with rfl | hw'
        · refine ⟨by simpa using h, fun c hc => ?_⟩
          have hc' : c ∈ acc := List.mem_reverse.1 hc
          exact ⟨hacc c hc', Or.inl hc'⟩
        · obtain ⟨h1, h2⟩ := ih [] (by simp) w hw'
          refine ⟨h1, fun c hc => ⟨(h2 c hc).1, ?_⟩⟩
          rcases (h2 c hc).2 with hc' | hc'
          · exact absurd hc' (List.not_mem_nil c)
          · exact Or.inr (List.mem_cons_of_mem d hc')
    · rw [if_neg hd] at hw
      have hd' : isPySpace d = false := Bool.not_eq_true _ ▸ eq_false_of_ne_true hd
      have hacc' : ∀ c ∈ d :: acc, isPySpace c = false := by
        intro c hc
        rcases List.mem_cons.1 hc with rfl | hc'
        · exact hd'
        · exact hacc c hc'
      obtain ⟨h1, h2⟩ := ih (d :: acc) hacc' w hw
      refine ⟨h1, fun c hc => ⟨(h2 c hc).1, ?_⟩⟩
      rcases (h2 c hc).2 with hc' | hc'
      · rcases List.mem_cons.1 hc' with rfl | hc''
        · exact Or.inr (List.mem_cons_self c rest)
        · exact Or.inl hc''
      · exact Or.inr (List.mem_cons_of_mem d hc')

theorem pysplit_props {l w : List Char} (hw : w ∈ pysplit l) :
    w ≠ [] ∧ ∀ c ∈ w, isPySpace c = false ∧ c ∈ l := by
  obtain ⟨h1, h2⟩ := pysplitAux_props l [] (by simp) w hw
  refine ⟨h1, fun c hc => ⟨(h2 c hc).1, ?_⟩⟩
  rcases (h2 c hc).2 with hc' | hc'
  · exact absurd hc' (List.not_mem_nil c)
  · exact hc'

theorem pysplit_allspace {l : List Char} (h : ∀ c ∈ l, isPySpace c = true) :
    pysplit l = [] := by
  unfold pysplit
  induction l with
  | nil => rfl
  | cons c t ih =>
    unfold pysplitAux
    rw [if_pos (h c (List.mem_cons_self c t)), if_pos rfl]
    exact ih (fun c hc => h c (List.mem_cons_of_mem _ hc))

theorem pysplitAux_nil (acc : List Char) :
    pysplitAux acc [] = if acc = [] then [] else [acc.reverse] := by
  simp [pysplitAux]

theorem pysplitAux_cons_nonspace {c : Char} (hc : isPySpace c = false)
    (acc l : List Char) : pysplitAux acc (c :: l) = pysplitAux (c :: acc) l := by
  simp [pysplitAux, hc]

theorem pysplitAux_cons_space {c : Char} (hc : isPySpace c = true)
    (acc l : List Char) :
    pysplitAux acc (c :: l) =
      if acc = [] then pysplitAux [] l else acc.reverse :: pysplitAux [] l := by
  simp [pysplitAux, hc]

theorem pysplitAux_chunk {w : List Char} (hw : ∀ c ∈ w, isPySpace c = false) :
    ∀ acc rest, pysplitAux acc (w ++ rest) = pysplitAux (w.reverse ++ acc) rest := by
  induction w with
  | nil => intro acc rest; rfl
  | cons c w' ih =>
    intro acc rest
    have hc : isPySpace c = false := hw c (List.mem_cons_self c w')
    rw [List.cons_append, pysplitAux_cons_nonspace hc,
      ih (fun x hx => hw x (List.mem_cons_of_mem c hx)) (c :: acc) rest]
    congr 1
    simp

theorem pysplit_joinSpace :
    ∀ L : List (List Char),
      (∀ w ∈ L, w ≠ [] ∧ ∀ c ∈ w, isPySpace c = false) →
      pysplit (joinSpace L) = L := by
  intro L
  induction L with
  | nil => intro _; rfl
  | cons w ws ih =>
    intro h
    obtain ⟨hw1, hw2⟩ := h w (List.mem_cons_self w ws)
    cases ws with
    | nil =>
      show pysplit w = [w]
      unfold pysplit
      have hstep := pysplitAux_chunk hw2 [] []
      rw [List.append_nil] at hstep
      rw [hstep, pysplitAux_nil, if_neg (by simpa using hw1), List.append_nil,
        List.reverse_reverse]
    | cons w₂ ws₂ =>
      show pysplit (w ++ ' ' :: joinSpace (w₂ :: ws₂)) = w :: w₂ :: ws₂
      unfold pysplit
      rw [pysplitAux_chunk hw2 [] (' ' :: joinSpace (w₂ :: ws₂)),
        pysplitAux_cons_space (by decide), if_neg (by simpa using hw1),
        List.append_nil, List.reverse_reverse]
      exact congrArg (w :: ·) (ih (fun u hu => h u (List.mem_cons_of_mem w hu)))

/-! ### Helper lemmas: substring containment -/

theorem mem_of_isPrefixB : ∀ {n h : List Char}, isPrefixB n h = true → ∀ c ∈ n, c ∈ h := by
  intro n
  induction n with
  | nil => intro h _ c hc; exact absurd hc (List.not_mem_nil c)
  | cons a as ih =>
    intro h hp c hc
    cases h with
    | nil => simp [isPrefixB] at hp
    | cons b bs =>
      simp only [isPrefixB, Bool.and_eq_true, beq_iff_eq] at hp
      obtain ⟨rfl, hp'⟩ := hp
      rcases List.mem_cons.1 hc with rfl | hc'
      · exact List.mem_cons_self c bs
      · exact List.mem_cons_of_mem _ (ih hp' c hc')

theorem mem_of_strIn : ∀ {n h : List Char}, strIn n h = true → ∀ c ∈ n, c ∈ h := by
  intro n h
  induction h with
  | nil =>
    intro hs c hc
    simp only [strIn, List.isEmpty_iff] at hs
    subst hs
    exact absurd hc (List.not_mem_nil c)
  | cons b t ih =>
    intro hs c hc
    simp only [strIn, Bool.or_eq_true] at hs
    rcases hs with hp | ht
    · exact mem_of_isPrefixB hp c hc
    · exact List.mem_cons_of_mem b (ih ht c hc)

/-- No two adjacent whitespace characters occur in the list. -/
def noDoubleSpace : List Char → Bool
  | a :: b :: t => (!(isPySpace a && isPySpace b)) && noDoubleSpace (b :: t)
  | _ => true

theorem strIn_double_space {a b : Char} {r : List Char}
    (ha : isPySpace a = true) (hb : isPySpace b = true) :
    ∀ {h : List Char}, strIn (a :: b :: r) h = true → noDoubleSpace h = false := by
  intro h
  induction h with
  | nil => intro hs; simp [strIn] at hs
  | cons x t ih =>
    intro hs
    simp only [strIn, Bool.or_eq_true] at hs
    rcases hs with hp | ht
    · cases t with
      | nil => simp [isPrefixB] at hp
      | cons y t' =>
        simp only [isPrefixB, Bool.and_eq_true, beq_iff_eq] at hp
        obtain ⟨rfl, rfl, _⟩ := hp
        simp [noDoubleSpace, ha, hb]
    · cases t with
      | nil => simp [strIn] at ht
      | cons y t' =>
        simp [noDoubleSpace, ih ht]

/-! ### Membership characterisations of the candidate lists -/

theorem mem_keywordCandidates {products : List Product} {q : List Char}
    {r : ScoredProduct} :
    r ∈ keywordCandidates products q ↔
      r.product ∈ products ∧ 0 < kwMatches q r.product ∧
        r.score = round3 ((kwMatches q r.product : ℚ) /
          ((pysplit (lowerStr q)).length : ℚ)) := by
  unfold keywordCandidates
  rw [List.mem_filterMap]
  constructor
  · rintro ⟨p, hp, hf⟩
    by_cases h : 0 < kwMatches q p
    · rw [if_pos h] at hf
      cases Option.some.inj hf
      exact ⟨hp, h, rfl⟩
    · rw [if_neg h] at hf
      exact absurd hf (Option.noConfusion)
  · rintro ⟨hmem, hpos, hs⟩
    refine ⟨r.product, hmem, ?_⟩
    rw [if_pos hpos, ← hs]

theorem mem_fuzzyCandidates {products : List Product} {q : List Char}
    {r : ScoredProduct} :
    r ∈ fuzzyCandidates products q ↔
      r.product ∈ products ∧ 0 < fzRaw (lowerStr q) (searchText r.product) ∧
        r.score = round3 (min (fzRaw (lowerStr q) (searchText r.product)) 1) := by
  unfold fuzzyCandidates
  rw [List.mem_filterMap]
  constructor
  · rintro ⟨p, hp, hf⟩
    by_cases h : 0 < fzRaw (lowerStr q) (searchText p)
    · rw [if_pos h] at hf
      cases Option.some.inj hf
      exact ⟨hp, h, rfl⟩
    · rw [if_neg h] at hf
      exact absurd hf (Option.noConfusion)
  · rintro ⟨hmem, hpos, hs⟩
    refine ⟨r.product, hmem, ?_⟩
    rw [if_pos hpos, ← hs]

theorem mem_semanticCandidates {jit : Nat → ℚ} {products : List Product}
    {q : List Char} {r : ScoredProduct} :
    r ∈ semanticCandidates jit products q ↔
      ∃ i, ∃ hi : i < products.length,
        0 < semPre (lowerStr q) (semanticText products[i]) ∧
        r = ⟨products[i], round3 (max (1 / 10)
          (min (semPre (lowerStr q) (semanticText products[i]) + jit i) 1))⟩ := by
  unfold semanticCandidates
  rw [List.mem_filterMap]
  constructor
  · rintro ⟨⟨i, p⟩, hp, hf⟩
    have hip : products[i]? = some p := List.mk_mem_enum_iff_getElem?.1 hp
    have hi : i < products.length := by
      by_contra hcon
      rw [List.getElem?_eq_none (Nat.le_of_not_lt hcon)] at hip
      exact Option.noConfusion hip
    have hpe : products[i] = p := by
      rw [List.getElem?_eq_getElem hi] at hip
      exact Option.some.inj hip
    by_cases h : 0 < semPre (lowerStr q) (semanticText p)
    · rw [if_pos h] at hf
      cases Option.some.inj hf
      exact ⟨i, hi, by rw [hpe]; exact h, by rw [hpe]⟩
    · rw [if_neg h] at hf
      exact absurd hf (Option.noConfusion)
  · rintro ⟨i, hi, hpos, rfl⟩
    refine ⟨(i, products[i]), List.mk_mem_enum_iff_getElem?.2 (List.getElem?_eq_getElem hi), ?_⟩
    rw [if_pos hpos]

/-- The single document of the worked example of the spec: a store entry whose
searchable content is exactly "Diamond Solitaire Ring". -/
def exDoc : Product :=
  { id := "1", name := "Diamond Solitaire Ring", description := "", price := 0,
    imageUrl := "", category := "" }

/-! ### Claims -/

/-- C1: for every query and every stored document the keyword strategy
lowercases the query, splits it on whitespace, counts the tokens occurring as
substrings of the document's lowercased name+description+category text, and
scores `round3 (matches / total_tokens)`; documents with zero matching tokens
are omitted; searching "diamond ring" over the single example document returns
exactly that document with score 1. -/
theorem claim_C1_keyword_scoring :
    (∀ (products : List Product) (q : List Char) (r : ScoredProduct),
        r ∈ keyword_search products q →
          0 < kwMatches q r.product ∧
          r.score = round3 ((kwMatches q r.product : ℚ) /
            ((pysplit (lowerStr q)).length : ℚ)))
    ∧ (∀ (products : List Product) (q : List Char) (p : Product),
        p ∈ products → 0 < kwMatches q p →
          (⟨p, round3 ((kwMatches q p : ℚ) / ((pysplit (lowerStr q)).length : ℚ))⟩ :
            ScoredProduct) ∈ keyword_search products q)
    ∧ (∀ (products : List Product) (q : List Char) (p : Product),
        kwMatches q p = 0 → ∀ s : ℚ, (⟨p, s⟩ : ScoredProduct) ∉ keyword_search products q)
    ∧ keyword_search [exDoc] ("diamond ring".data) = [⟨exDoc, 1⟩] := by
  refine ⟨?_, ?_, ?_, ?_⟩
  · intro products q r hr
    have h := mem_keywordCandidates.1 ((mem_insSort scoreGe).1 hr)
    exact ⟨h.2.1, h.2.2⟩
  · intro products q p hp hpos
    exact (mem_insSort scoreGe).2 (mem_keywordCandidates.2 ⟨hp, hpos, rfl⟩)
  · intro products q p hz s hmem
    have h := mem_keywordCandidates.1 ((mem_insSort scoreGe).1 hmem)
    rw [show (⟨p, s⟩ : ScoredProduct).product = p from rfl, hz] at h
    exact absurd h.2.1 (lt_irrefl 0)
  · decide

/-- Closed witness for C1: the existence branch applied to the example store. -/
theorem claim_C1_witness :
    exDoc ∈ [exDoc] ∧ 0 < kwMatches ("diamond ring".data) exDoc ∧
      (⟨exDoc, round3 ((kwMatches ("diamond ring".data) exDoc : ℚ) /
        ((pysplit (lowerStr ("diamond ring".data))).length : ℚ))⟩ : ScoredProduct) ∈
          keyword_search [exDoc] ("diamond ring".data) :=
  ⟨by decide, by decide,
    claim_C1_keyword_scoring.2.1 [exDoc] ("diamond ring".data) exDoc (by decide) (by decide)⟩

/-- C2: for every query and every stored document the fuzzy strategy scores
0.2 per 3-character query slice found in the document text plus 0.3 per query
word found, clamps at 1, and omits zero-score documents; for the query "ring"
against the example document the raw score is 0.4 + 0.3 = 0.7 and the returned
score is 0.7. -/
theorem claim_C2_fuzzy_scoring :
    (∀ (products : List Product) (q : List Char) (r : ScoredProduct),
        r ∈ fuzzy_search products q →
          0 < fzRaw (lowerStr q) (searchText r.product) ∧
          r.score = round3 (min (fzRaw (lowerStr q) (searchText r.product)) 1))
    ∧ (∀ (products : List Product) (q : List Char) (p : Product),
        p ∈ products → 0 < fzRaw (lowerStr q) (searchText p) →
          (⟨p, round3 (min (fzRaw (lowerStr q) (searchText p)) 1)⟩ : ScoredProduct) ∈
            fuzzy_search products q)
    ∧ (∀ (products : List Product) (q : List Char) (p : Product),
        fzRaw (lowerStr q) (searchText p) = 0 →
          ∀ s : ℚ, (⟨p, s⟩ : ScoredProduct) ∉ fuzzy_search products q)
    ∧ fzRaw (lowerStr ("ring".data)) (searchText exDoc) = 7 / 10
    ∧ fuzzy_search [exDoc] ("ring".data) = [⟨exDoc, 7 / 10⟩] := by
  refine ⟨?_, ?_, ?_, ?_, ?_⟩
  · intro products q r hr
    have h := mem_fuzzyCandidates.1 ((mem_insSort scoreGe).1 hr)
    exact ⟨h.2.1, h.2.2⟩
  · intro products q p hp hpos
    exact (mem_insSort scoreGe).2 (mem_fuzzyCandidates.2 ⟨hp, hpos, rfl⟩)
  · intro products q p hz s hmem
    have h := mem_fuzzyCandidates.1 ((mem_insSort scoreGe).1 hmem)
    rw [show (⟨p, s⟩ : ScoredProduct).product = p from rfl, hz] at h
    exact absurd h.2.1 (lt_irrefl 0)
  · decide
  · decide

/-- Closed witness for C2: the existence branch applied to the example store. -/
theorem claim_C2_witness :
    exDoc ∈ [exDoc] ∧ 0 < fzRaw (lowerStr ("ring".data)) (searchText exDoc) ∧
      (⟨exDoc, round3 (min (fzRaw (lowerStr ("ring".data)) (searchText exDoc)) 1)⟩ :
        ScoredProduct) ∈ fuzzy_search [exDoc] ("ring".data) :=
  ⟨by decide, by decide,
    claim_C2_fuzzy_scoring.2.1 [exDoc] ("ring".data) exDoc (by decide) (by decide)⟩

/-! ### The rewriter: characterisation and idempotence -/

theorem lowerStr_fixed {l : List Char} (h : ∀ c ∈ l, lowerChar c = c) :
    lowerStr l = l := by
  unfold lowerStr
  rw [List.map_congr_left h]
  exact List.map_id l

theorem expansions_vals_lower :
    ∀ tv ∈ expansions, ∀ c ∈ tv.2, lowerChar c = c := by decide

theorem expansions_no_cross :
    ∀ tv ∈ expansions, ∀ w ∈ pysplit tv.2,
      (lookupExp w expansions).isSome = true → w = tv.1 := by decide

theorem lookupExp_mem : ∀ {E : List (List Char × List Char)} {w v : List Char},
    lookupExp w E = some v → (w, v) ∈ E := by
  intro E
  induction E with
  | nil => intro w v h; exact absurd h (Option.noConfusion)
  | cons tv rest ih =>
    intro w v h
    unfold lookupExp at h
    by_cases he : tv.1 = w
    · rw [if_pos he] at h
      have htv : tv = (w, v) := Prod.ext he (Option.some.inj h)
      rw [← htv]
      exact List.mem_cons_self tv rest
    · rw [if_neg he] at h
      exact List.mem_cons_of_mem tv (ih h)

theorem mem_expandWord {u w : List Char} (h : w ∈ expandWord u) :
    ∃ v, lookupExp u expansions = some v ∧ w ∈ pysplit v := by
  unfold expandWord at h
  cases he : lookupExp u expansions with
  | none =>
    rw [he] at h
    exact absurd h (List.not_mem_nil w)
  | some v =>
    rw [he] at h
    exact ⟨v, rfl, h⟩

theorem mergedTerms_props {q w : List Char} (h : w ∈ mergedTerms q) :
    w ≠ [] ∧ ∀ c ∈ w, isPySpace c = false ∧ lowerChar c = c := by
  unfold mergedTerms at h
  rcases List.mem_append.1 h with h' | h'
  · obtain ⟨h1, h2⟩ := pysplit_props h'
    exact ⟨h1, fun c hc => ⟨(h2 c hc).1, lowerChar_of_mem_lowerStr (h2 c hc).2⟩⟩
  · obtain ⟨u, _, hw⟩ := List.mem_flatMap.1 h'
    obtain ⟨v, hv, hwv⟩ := mem_expandWord hw
    obtain ⟨h1, h2⟩ := pysplit_props hwv
    exact ⟨h1, fun c hc => ⟨(h2 c hc).1,
      expansions_vals_lower (u, v) (lookupExp_mem hv) c (h2 c hc).2⟩⟩

theorem joinSpace_chars :
    ∀ L : List (List Char), ∀ c ∈ joinSpace L, c = ' ' ∨ ∃ w ∈ L, c ∈ w := by
  intro L
  induction L with
  | nil => intro c hc; exact absurd hc (List.not_mem_nil c)
  | cons w ws ih =>
    intro c hc
    cases ws with
    | nil => exact Or.inr ⟨w, List.mem_cons_self w [], hc⟩
    | cons w₂ ws₂ =>
      rcases List.mem_append.1 hc with hc' | hc'
      · exact Or.inr ⟨w, List.mem_cons_self w _, hc'⟩
      · rcases List.mem_cons.1 hc' with rfl | hc''
        · exact Or.inl rfl
        · rcases ih c hc'' with h | ⟨u, hu, hcu⟩
          · exact Or.inl h
          · exact Or.inr ⟨u, List.mem_cons_of_mem w hu, hcu⟩

/-- The sorted deduplicated term list that `rewrite_query` joins. -/
def sortedTerms (q : List Char) : List (List Char) :=
  insSort strLeB (mergedTerms q).dedup

theorem rewrite_query_eq (q : List Char) :
    rewrite_query q = joinSpace (sortedTerms q) := rfl

theorem mem_sortedTerms {q w : List Char} :
    w ∈ sortedTerms q ↔ w ∈ mergedTerms q := by
  unfold sortedTerms
  rw [mem_insSort, List.mem_dedup]

theorem sortedTerms_nodup (q : List Char) : (sortedTerms q).Nodup :=
  (insSort_perm strLeB (mergedTerms q).dedup).nodup_iff.2 (List.nodup_dedup _)

theorem sortedTerms_pairwise (q : List Char) :
    (sortedTerms q).Pairwise (fun a b => strLeB a b = true) :=
  pairwise_insSort strLeB_total strLeB_trans _

theorem lowerStr_rewrite_query (q : List Char) :
    lowerStr (rewrite_query q) = rewrite_query q := by
  rw [rewrite_query_eq]
  refine lowerStr_fixed (fun c hc => ?_)
  rcases joinSpace_chars _ c hc with rfl | ⟨w, hw, hcw⟩
  · decide
  · exact ((mergedTerms_props (mem_sortedTerms.1 hw)).2 c hcw).2

theorem pysplit_rewrite_query (q : List Char) :
    pysplit (rewrite_query q) = sortedTerms q := by
  rw [rewrite_query_eq]
  refine pysplit_joinSpace _ (fun w hw => ?_)
  obtain ⟨h1, h2⟩ := mergedTerms_props (mem_sortedTerms.1 hw)
  exact ⟨h1, fun c hc => (h2 c hc).1⟩

/-- C3: the query rewriter is a pure deterministic function that lowercases
and splits the query, merges in the expansion words of every trigger word,
deduplicates, and emits the set sorted and joined by single spaces; rewriting
"gold ring" yields "band gold jewelry luxury metal ring yellow". -/
theorem claim_C3_rewrite_query :
    (∀ q : List Char, ∃ L : List (List Char),
        L.Nodup ∧ L.Pairwise (fun a b => strLeB a b = true) ∧
        (∀ w, w ∈ L ↔ w ∈ mergedTerms q) ∧
        rewrite_query q = joinSpace L)
    ∧ rewrite_query ("gold ring".data) =
        ("band gold jewelry luxury metal ring yellow".data) := by
  refine ⟨?_, by decide⟩
  intro q
  exact ⟨sortedTerms q, sortedTerms_nodup q, sortedTerms_pairwise q,
    fun w => mem_sortedTerms, rewrite_query_eq q⟩

/-- C9: the query rewriter is idempotent, since no expansion word other than
an entry's own trigger is itself a trigger of the table, and the sorted
deduplicated join re-splits to the same word list. -/
theorem claim_C9_rewrite_idempotent (q : List Char) :
    rewrite_query (rewrite_query q) = rewrite_query q := by
  have hset : sortedTerms (rewrite_query q) = sortedTerms q := by
    refine sorted_nodup_eq strLeB_antisymm _ _ (sortedTerms_pairwise _)
      (sortedTerms_pairwise q) (sortedTerms_nodup _) (sortedTerms_nodup q)
      (fun w => ?_)
    rw [mem_sortedTerms, mem_sortedTerms]
    show w ∈ mergedTerms (rewrite_query q) ↔ w ∈ mergedTerms q
    conv_lhs => rw [mergedTerms, lowerStr_rewrite_query q, pysplit_rewrite_query q]
    constructor
    · intro h
      rcases List.mem_append.1 h with h' | h'
      · exact mem_sortedTerms.1 h'
      · obtain ⟨u, hu, hw⟩ := List.mem_flatMap.1 h'
        have hu' : u ∈ mergedTerms q := mem_sortedTerms.1 hu
        rcases List.mem_append.1 hu' with huW | huE
        · exact List.mem_append.2 (Or.inr (List.mem_flatMap.2 ⟨u, huW, hw⟩))
        · obtain ⟨t, htW, hut⟩ := List.mem_flatMap.1 huE
          obtain ⟨vt, hvt, huvt⟩ := mem_expandWord hut
          obtain ⟨vu, hvu, _⟩ := mem_expandWord hw
          have hut' : u = t :=
            expansions_no_cross (t, vt) (lookupExp_mem hvt) u huvt
              (by rw [hvu]; rfl)
          rw [hut'] at hw
          exact List.mem_append.2 (Or.inr (List.mem_flatMap.2 ⟨t, htW, hw⟩))
    · intro h
      exact List.mem_append.2 (Or.inl (mem_sortedTerms.2 h))
  rw [rewrite_query_eq (rewrite_query q), hset, ← rewrite_query_eq q]

/-! ### Result ordering (C5) -/

theorem sorted_insSort_scoreGe (l : List ScoredProduct) :
    (insSort scoreGe l).Pairwise (fun a b => b.score ≤ a.score) :=
  (pairwise_insSort scoreGe_total scoreGe_trans l).imp (fun h => of_decide_eq_true h)

theorem stable_insSort_scoreGe (l : List ScoredProduct) (s : ℚ) :
    (insSort scoreGe l).filter (fun r => decide (r.score = s)) =
      l.filter (fun r => decide (r.score = s)) := by
  refine filter_insSort scoreGe _ (fun x y hx hy => ?_) l
  have hx' : x.score = s := of_decide_eq_true hx
  have hy' : y.score = s := of_decide_eq_true hy
  exact decide_eq_true (le_of_eq (hy'.trans hx'.symm))

theorem fzRaw_pos_lower {ql text : List Char} (h : 0 < fzRaw ql text) :
    1 / 5 ≤ fzRaw ql text := by
  unfold fzRaw at h ⊢
  set a := ((fuzzySlices ql).filter (fun sl => strIn sl text)).length with ha
  set b := ((pysplit ql).filter (fun w => strIn w text)).length with hb
  have hca : (0 : ℚ) ≤ (a : ℚ) := Nat.cast_nonneg a
  have hcb : (0 : ℚ) ≤ (b : ℚ) := Nat.cast_nonneg b
  rcases Nat.eq_zero_or_pos a with haz | hap
  · rcases Nat.eq_zero_or_pos b with hbz | hbp
    · rw [haz, hbz] at h
      norm_num at h
    · have h1 : (1 : ℚ) ≤ (b : ℚ) := by exact_mod_cast hbp
      have h2 : (2 / 10 : ℚ) * (a : ℚ) ≥ 0 := by positivity
      nlinarith
  · have h1 : (1 : ℚ) ≤ (a : ℚ) := by exact_mod_cast hap
    have h2 : (3 / 10 : ℚ) * (b : ℚ) ≥ 0 := by positivity
    nlinarith

/-- C5 amended: each of the three result lists is sorted non-increasingly by
score with ties kept in the scan order of the document list (stable sort);
fuzzy and semantic results always have positive score, but keyword results are
only guaranteed a nonnegative score: the rounded keyword score can be `0.0`
even though only documents with at least one matching token are kept. -/
theorem claim_C5_ordering_amended :
    ∀ (products : List Product) (q : List Char) (jit : Nat → ℚ),
      ((keyword_search products q).Pairwise (fun a b => b.score ≤ a.score)
        ∧ ∀ s : ℚ, (keyword_search products q).filter (fun r => decide (r.score = s)) =
            (keywordCandidates products q).filter (fun r => decide (r.score = s)))
      ∧ ((fuzzy_search products q).Pairwise (fun a b => b.score ≤ a.score)
        ∧ ∀ s : ℚ, (fuzzy_search products q).filter (fun r => decide (r.score = s)) =
            (fuzzyCandidates products q).filter (fun r => decide (r.score = s)))
      ∧ ((semantic_search jit products q).Pairwise (fun a b => b.score ≤ a.score)
        ∧ ∀ s : ℚ, (semantic_search jit products q).filter (fun r => decide (r.score = s)) =
            (semanticCandidates jit products q).filter (fun r => decide (r.score = s)))
      ∧ (∀ r ∈ keyword_search products q, 0 ≤ r.score)
      ∧ (∀ r ∈ fuzzy_search products q, 0 < r.score)
      ∧ (∀ r ∈ semantic_search jit products q, 0 < r.score) := by
  intro products q jit
  refine ⟨⟨sorted_insSort_scoreGe _, stable_insSort_scoreGe _⟩,
    ⟨sorted_insSort_scoreGe _, stable_insSort_scoreGe _⟩,
    ⟨sorted_insSort_scoreGe _, stable_insSort_scoreGe _⟩, ?_, ?_, ?_⟩
  · intro r hr
    obtain ⟨-, -, hs⟩ := mem_keywordCandidates.1 ((mem_insSort scoreGe).1 hr)
    rw [hs]
    refine round3_nonneg (div_nonneg (Nat.cast_nonneg _) (Nat.cast_nonneg _))
  · intro r hr
    obtain ⟨-, hpos, hs⟩ := mem_fuzzyCandidates.1 ((mem_insSort scoreGe).1 hr)
    have h15 : (1 / 5 : ℚ) ≤ min (fzRaw (lowerStr q) (searchText r.product)) 1 :=
      le_min (fzRaw_pos_lower hpos) (by norm_num)
    have : (1 / 5 : ℚ) ≤ r.score := by
      rw [hs]
      calc (1 / 5 : ℚ) = round3 (1 / 5) := by decide
        _ ≤ _ := round3_mono h15
    linarith
  · intro r hr
    obtain ⟨i, hi, -, hs⟩ := mem_semanticCandidates.1 ((mem_insSort scoreGe).1 hr)
    have h110 : (1 / 10 : ℚ) ≤ max (1 / 10)
        (min (semPre (lowerStr q) (semanticText products[i]) + jit i) 1) :=
      le_max_left _ _
    have : (1 / 10 : ℚ) ≤ r.score := by
      rw [hs]
      calc (1 / 10 : ℚ) = round3 (1 / 10) := by decide
        _ ≤ _ := round3_mono h110
    linarith

/-- Closed witness for C5: the fuzzy-positivity branch at the example store. -/
theorem claim_C5_witness :
    (⟨exDoc, 7 / 10⟩ : ScoredProduct) ∈ fuzzy_search [exDoc] ("ring".data) ∧
      0 < (⟨exDoc, 7 / 10⟩ : ScoredProduct).score :=
  ⟨by decide,
    (claim_C5_ordering_amended [exDoc] ("ring".data) (fun _ => 0)).2.2.2.2.1
      ⟨exDoc, 7 / 10⟩ (by decide)⟩

/-- The 2001-token query "diamond q q … q" (2000 copies of "q"). -/
def bigQ : List Char := joinSpace ("diamond".data :: List.replicate 2000 ("q".data))

theorem filter_replicate_neg {α : Type _} (p : α → Bool) (a : α)
    (h : p a = false) : ∀ n, (List.replicate n a).filter p = [] := by
  intro n
  induction n with
  | zero => rfl
  | succ n ih => simp [List.replicate_succ, List.filter_cons, h, ih]

theorem bigQ_words_ok :
    ∀ w ∈ ("diamond".data :: List.replicate 2000 ("q".data)),
      w ≠ [] ∧ ∀ c ∈ w, isPySpace c = false := by
  intro w hw
  rcases List.mem_cons.1 hw with rfl | hw'
  · exact ⟨by decide, by decide⟩
  · rw [List.eq_of_mem_replicate hw']
    exact ⟨by decide, by decide⟩

theorem lowerStr_bigQ : lowerStr bigQ = bigQ := by
  refine lowerStr_fixed (fun c hc => ?_)
  rcases joinSpace_chars _ c hc with rfl | ⟨w, hw, hcw⟩
  · decide
  · have hd : ∀ x ∈ ("diamond".data), lowerChar x = x := by decide
    have hq : ∀ x ∈ ("q".data), lowerChar x = x := by decide
    rcases List.mem_cons.1 hw with rfl | hw'
    · exact hd c hcw
    · rw [List.eq_of_mem_replicate hw'] at hcw
      exact hq c hcw

theorem pysplit_bigQ :
    pysplit (lowerStr bigQ) = "diamond".data :: List.replicate 2000 ("q".data) := by
  rw [lowerStr_bigQ]
  exact pysplit_joinSpace _ bigQ_words_ok

/-- The first product of the store (the diamond solitaire ring). -/
def prodDiamond : Product := PRODUCTS.get ⟨0, by decide⟩

theorem kwMatches_bigQ : kwMatches bigQ prodDiamond = 1 := by
  unfold kwMatches
  rw [pysplit_bigQ]
  have h1 : strIn ("diamond".data) (searchText prodDiamond) = true := by decide
  have h2 : strIn ("q".data) (searchText prodDiamond) = false := by decide
  rw [List.filter_cons, if_pos h1,
    filter_replicate_neg (fun kw => strIn kw (searchText prodDiamond)) ("q".data) h2 2000]
  rfl

theorem bigQ_token_count : ((pysplit (lowerStr bigQ)).length : ℚ) = 2001 := by
  rw [pysplit_bigQ, List.length_cons, List.length_replicate]
  norm_num

/-- C5 counterexample: on the 2001-token query `bigQ` the keyword strategy
returns the diamond ring with rounded score 0, refuting "contains only
documents with score > 0". -/
theorem claim_C5_counterexample :
    ¬ ∀ r ∈ keyword_search PRODUCTS bigQ, 0 < r.score := by
  intro hall
  have hs0 : round3 ((kwMatches bigQ prodDiamond : ℚ) /
      ((pysplit (lowerStr bigQ)).length : ℚ)) = 0 := by
    rw [kwMatches_bigQ, bigQ_token_count]
    decide
  have hmem : (⟨prodDiamond, round3 ((kwMatches bigQ prodDiamond : ℚ) /
      ((pysplit (lowerStr bigQ)).length : ℚ))⟩ : ScoredProduct) ∈
        keyword_search PRODUCTS bigQ := by
    refine (mem_insSort scoreGe).2 (mem_keywordCandidates.2 ⟨?_, ?_, rfl⟩)
    · exact List.get_mem PRODUCTS 0 (by decide)
    · rw [kwMatches_bigQ]
      exact Nat.one_pos
  have := hall _ hmem
  rw [hs0] at this
  exact absurd this (lt_irrefl 0)

/-! ### Semantic score bounds (C4) -/

theorem semPre_nonneg (ql text : List Char) : 0 ≤ semPre ql text := by
  unfold semPre
  refine add_nonneg (mul_nonneg (by norm_num) (Nat.cast_nonneg _))
    (mul_nonneg (by norm_num) (List.sum_nonneg ?_))
  intro x hx
  obtain ⟨ca, _, rfl⟩ := List.mem_map.1 hx
  by_cases h : strIn ca.1 ql = true
  · rw [if_pos h]
    exact Nat.cast_nonneg _
  · rw [if_neg h]

/-- C4: with the per-document jitter an arbitrary value in [-0.1, 0.1], every
stored document with nonzero pre-jitter semantic score appears in the semantic
results with a final score in [0.1, 1], and documents with pre-jitter score 0
are omitted entirely. -/
theorem claim_C4_semantic_bounds :
    ∀ jit : Nat → ℚ, (∀ n, -(1 / 10) ≤ jit n ∧ jit n ≤ 1 / 10) →
      ∀ (products : List Product) (q : List Char) (i : Nat) (hi : i < products.length),
        (semPre (lowerStr q) (semanticText products[i]) ≠ 0 →
          ∃ s : ℚ, 1 / 10 ≤ s ∧ s ≤ 1 ∧
            (⟨products[i], s⟩ : ScoredProduct) ∈ semantic_search jit products q)
        ∧ (semPre (lowerStr q) (semanticText products[i]) = 0 →
            ∀ s : ℚ, (⟨products[i], s⟩ : ScoredProduct) ∉ semantic_search jit products q) := by
  intro jit _ products q i hi
  constructor
  · intro hne
    have hpos : 0 < semPre (lowerStr q) (semanticText products[i]) :=
      lt_of_le_of_ne (semPre_nonneg _ _) (Ne.symm hne)
    refine ⟨round3 (max (1 / 10)
      (min (semPre (lowerStr q) (semanticText products[i]) + jit i) 1)), ?_, ?_, ?_⟩
    · calc (1 / 10 : ℚ) = round3 (1 / 10) := by decide
        _ ≤ _ := round3_mono (le_max_left _ _)
    · calc round3 (max (1 / 10)
          (min (semPre (lowerStr q) (semanticText products[i]) + jit i) 1))
          ≤ round3 1 := round3_mono (max_le (by norm_num) (min_le_right _ 1))
        _ = 1 := by decide
    · exact (mem_insSort scoreGe).2 (mem_semanticCandidates.2 ⟨i, hi, hpos, rfl⟩)
  · intro hz s hmem
    obtain ⟨j, hj, hjpos, hje⟩ := mem_semanticCandidates.1 ((mem_insSort scoreGe).1 hmem)
    have hpe : products[j] = products[i] := congrArg ScoredProduct.product hje.symm
    rw [hpe, hz] at hjpos
    exact absurd hjpos (lt_irrefl 0)

/-- Closed witness for C4: zero jitter, query "diamond", the first product. -/
theorem claim_C4_witness :
    (∀ n : Nat, -(1 / 10 : ℚ) ≤ (fun _ : Nat => (0 : ℚ)) n ∧
        (fun _ : Nat => (0 : ℚ)) n ≤ 1 / 10)
    ∧ semPre (lowerStr ("diamond".data)) (semanticText prodDiamond) ≠ 0
    ∧ ∃ s : ℚ, 1 / 10 ≤ s ∧ s ≤ 1 ∧
        (⟨prodDiamond, s⟩ : ScoredProduct) ∈
          semantic_search (fun _ => 0) PRODUCTS ("diamond".data) :=
  ⟨fun n => by norm_num, by decide,
    (claim_C4_semantic_bounds (fun _ => 0) (fun n => by norm_num) PRODUCTS
      ("diamond".data) 0 (by decide)).1 (by decide)⟩

/-! ### The facade and top_k truncation (C6) -/

/-- C6: for every query and every k ≥ 1 the facade returns at most k results,
ordered descending by score, and `total_hits` equals the number of matching
documents before truncation, for each of the three strategies. -/
theorem claim_C6_topk_truncation :
    ∀ (products : List Product) (q : List Char) (jit : Nat → ℚ) (k : Nat), 1 ≤ k →
      ∀ strategy ∈ [keyword_search products, fuzzy_search products,
          semantic_search jit products],
        (facade_search strategy q k).results.length ≤ k
        ∧ (facade_search strategy q k).results.Pairwise (fun a b => b.score ≤ a.score)
        ∧ (facade_search strategy q k).total_hits = (strategy q).length
        ∧ (facade_search strategy q k).results = (strategy q).take k := by
  intro products q jit k _ strategy hmem
  have hsorted : (strategy q).Pairwise (fun a b => b.score ≤ a.score) := by
    rcases List.mem_cons.1 hmem with rfl | hmem'
    · exact sorted_insSort_scoreGe _
    · rcases List.mem_cons.1 hmem' with rfl | hmem''
      · exact sorted_insSort_scoreGe _
      · rcases List.mem_cons.1 hmem'' with rfl | hmem3
        · exact sorted_insSort_scoreGe _
        · exact absurd hmem3 (List.not_mem_nil strategy)
  exact ⟨List.length_take_le k _, List.Pairwise.sublist (List.take_sublist k _) hsorted, rfl, rfl⟩

/-- Closed witness for C6: keyword strategy, query "diamond ring", k = 1. -/
theorem claim_C6_witness :
    1 ≤ 1
    ∧ keyword_search PRODUCTS ∈ [keyword_search PRODUCTS, fuzzy_search PRODUCTS,
        semantic_search (fun _ => 0) PRODUCTS]
    ∧ ((facade_search (keyword_search PRODUCTS) ("diamond ring".data) 1).results.length ≤ 1
      ∧ (facade_search (keyword_search PRODUCTS) ("diamond ring".data) 1).results.Pairwise
          (fun a b => b.score ≤ a.score)
      ∧ (facade_search (keyword_search PRODUCTS) ("diamond ring".data) 1).total_hits =
          (keyword_search PRODUCTS ("diamond ring".data)).length
      ∧ (facade_search (keyword_search PRODUCTS) ("diamond ring".data) 1).results =
          (keyword_search PRODUCTS ("diamond ring".data)).take 1) :=
  ⟨le_refl 1, List.mem_cons_self _ _,
    claim_C6_topk_truncation PRODUCTS ("diamond ring".data) (fun _ => 0) 1 (le_refl 1)
      (keyword_search PRODUCTS) (List.mem_cons_self _ _)⟩

/-! ### Totality on whitespace-only queries (C7) -/

theorem products_no_double_space :
    ∀ p ∈ PRODUCTS, noDoubleSpace (searchText p) = true := by decide

theorem associations_concepts_nonspace :
    ∀ ca ∈ associations, ∃ ch ∈ ca.1, isPySpace ch = false := by decide

/-- C7: every strategy is a total function, and on a whitespace-only (in
particular empty) query each of the three strategies over the hardcoded store
returns the empty result list; the keyword strategy's division by the token
count is unreachable because no document is scored. -/
theorem claim_C7_whitespace_query :
    ∀ q : List Char, (∀ c ∈ q, isPySpace c = true) →
      keyword_search PRODUCTS q = [] ∧ fuzzy_search PRODUCTS q = [] ∧
        ∀ jit : Nat → ℚ, semantic_search jit PRODUCTS q = [] := by
  intro q h
  have hl : lowerStr q = q := lowerStr_of_all_space h
  have hsplit : pysplit (lowerStr q) = [] := by
    rw [hl]
    exact pysplit_allspace h
  refine ⟨?_, ?_, ?_⟩
  · show insSort scoreGe (keywordCandidates PRODUCTS q) = []
    have hc : keywordCandidates PRODUCTS q = [] := by
      refine List.filterMap_eq_nil.2 (fun p _ => ?_)
      have hm : kwMatches q p = 0 := by
        unfold kwMatches
        rw [hsplit]
        rfl
      rw [if_neg (by rw [hm]; exact lt_irrefl 0)]
    rw [hc]
    rfl
  · show insSort scoreGe (fuzzyCandidates PRODUCTS q) = []
    have hc : fuzzyCandidates PRODUCTS q = [] := by
      refine List.filterMap_eq_nil.2 (fun p hp => ?_)
      have hz : fzRaw (lowerStr q) (searchText p) = 0 := by
        unfold fzRaw
        have hw : ((pysplit (lowerStr q)).filter
            (fun w => strIn w (searchText p))).length = 0 := by
          rw [hsplit]
          rfl
        have hsl : ((fuzzySlices (lowerStr q)).filter
            (fun sl => strIn sl (searchText p))).length = 0 := by
          rw [List.length_eq_zero]
          refine List.filter_eq_nil.2 (fun sl hsl => ?_)
          obtain ⟨i, hi, rfl⟩ := List.mem_map.1 hsl
          have hir : i < (lowerStr q).length - 2 := List.mem_range.1 hi
          have hlen3 : (((lowerStr q).drop i).take 3).length = 3 := by
            rw [List.length_take, List.length_drop]
            omega
          intro hcon
          rcases hsl3 : ((lowerStr q).drop i).take 3 with _ | ⟨a, _ | ⟨b, rest⟩⟩
          · rw [hsl3] at hlen3
            simp at hlen3
          · rw [hsl3] at hlen3
            simp at hlen3
          · have hsub : ∀ c ∈ ((lowerStr q).drop i).take 3, c ∈ q := by
              intro c hc
              rw [← hl]
              exact List.drop_subset i _ (List.take_subset 3 _ hc)
            have ha : isPySpace a = true := by
              refine h a (hl ▸ hsub a ?_)
              rw [hsl3]
              exact List.mem_cons_self a _
            have hb : isPySpace b = true := by
              refine h b (hl ▸ hsub b ?_)
              rw [hsl3]
              exact List.mem_cons_of_mem a (List.mem_cons_self b rest)
            rw [hsl3] at hcon
            have := strIn_double_space ha hb hcon
            rw [products_no_double_space p hp] at this
            exact Bool.noConfusion this
        rw [hw, hsl]
        norm_num
      rw [if_neg (by rw [hz]; exact lt_irrefl 0)]
    rw [hc]
    rfl
  · intro jit
    show insSort scoreGe (semanticCandidates jit PRODUCTS q) = []
    have hc : semanticCandidates jit PRODUCTS q = [] := by
      refine List.filterMap_eq_nil.2 (fun ip _ => ?_)
      have hz : semPre (lowerStr q) (semanticText ip.2) = 0 := by
        unfold semPre
        have hw : ((pysplit (lowerStr q)).filter
            (fun w => strIn w (semanticText ip.2))).length = 0 := by
          rw [hsplit]
          rfl
        have hassoc : (associations.map (fun ca =>
            if strIn ca.1 (lowerStr q) then
              ((ca.2.filter (fun r => strIn r (semanticText ip.2))).length : ℚ)
            else 0)).sum = 0 := by
          refine List.sum_eq_zero (fun x hx => ?_)
          obtain ⟨ca, hca, rfl⟩ := List.mem_map.1 hx
          have hfalse : strIn ca.1 (lowerStr q) = false := by
            by_contra hcon
            have htrue : strIn ca.1 (lowerStr q) = true :=
              Bool.not_eq_false _ ▸ eq_true_of_ne_false hcon
            obtain ⟨ch, hch, hchf⟩ := associations_concepts_nonspace ca hca
            have : ch ∈ q := hl ▸ mem_of_strIn htrue ch hch
            rw [h ch this] at hchf
            exact Bool.noConfusion hchf
          rw [if_neg (by rw [hfalse]; exact Bool.noConfusion)]
        rw [hw, hassoc]
        norm_num
      rw [if_neg (by rw [hz]; exact lt_irrefl 0)]
    rw [hc]
    rfl

/-- Closed witness for C7: the query " " (one space). -/
theorem claim_C7_witness :
    (∀ c ∈ (" ".data), isPySpace c = true) ∧
      (keyword_search PRODUCTS (" ".data) = [] ∧ fuzzy_search PRODUCTS (" ".data) = [] ∧
        ∀ jit : Nat → ℚ, semantic_search jit PRODUCTS (" ".data) = []) :=
  ⟨by decide, claim_C7_whitespace_query (" ".data) (by decide)⟩

/-! ### Delete semantics (C8) -/

theorem deleteDocs_cons {α : Type _} (docs : List (String × α)) (i : String)
    (rest : List String) :
    deleteDocs docs (i :: rest) =
      if docs.any (fun kv => kv.1 == i) then
        ((deleteDocs (docs.filter (fun kv => kv.1 != i)) rest).1,
         (deleteDocs (docs.filter (fun kv => kv.1 != i)) rest).2 + 1)
      else deleteDocs docs rest := rfl

theorem map_fst_filter_ne {α : Type _} (docs : List (String × α)) (i : String) :
    (docs.filter (fun kv => kv.1 != i)).map Prod.fst =
      (docs.map Prod.fst).filter (fun k => k != i) := by
  induction docs with
  | nil => rfl
  | cons kv rest ih =>
    simp only [List.filter_cons, List.map_cons]
    cases hb : (kv.1 != i) <;> simp [hb, ih]

theorem any_fst_eq {α : Type _} {docs : List (String × α)} {i : String} :
    docs.any (fun kv => kv.1 == i) = true ↔ i ∈ docs.map Prod.fst := by
  rw [List.any_eq_true]
  constructor
  · rintro ⟨kv, hkv, he⟩
    exact List.mem_map.2 ⟨kv, hkv, beq_iff_eq.1 he⟩
  · intro hm
    obtain ⟨kv, hkv, he⟩ := List.mem_map.1 hm
    exact ⟨kv, hkv, beq_iff_eq.2 he⟩

theorem deleteDocs_count {α : Type _} :
    ∀ (ids : List String) (docs : List (String × α)), (docs.map Prod.fst).Nodup →
      (deleteDocs docs ids).2 =
        ((docs.map Prod.fst).toFinset ∩ ids.toFinset).card := by
  intro ids
  induction ids with
  | nil =>
    intro docs _
    show 0 = _
    rw [List.toFinset_nil, Finset.inter_empty, Finset.card_empty]
  | cons i rest ih =>
    intro docs hnd
    by_cases hp : docs.any (fun kv => kv.1 == i) = true
    · have hiK : i ∈ docs.map Prod.fst := any_fst_eq.1 hp
      have hiK' : i ∈ (docs.map Prod.fst).toFinset := List.mem_toFinset.2 hiK
      rw [deleteDocs_cons, if_pos hp]
      have hnd' : ((docs.filter (fun kv => kv.1 != i)).map Prod.fst).Nodup := by
        rw [map_fst_filter_ne]
        exact hnd.filter _
      show (deleteDocs (docs.filter (fun kv => kv.1 != i)) rest).2 + 1 = _
      rw [ih _ hnd']
      have hK' : ((docs.filter (fun kv => kv.1 != i)).map Prod.fst).toFinset =
          (docs.map Prod.fst).toFinset.erase i := by
        rw [map_fst_filter_ne]
        ext a
        simp only [List.mem_toFinset, List.mem_filter, Finset.mem_erase, bne_iff_ne]
        exact and_comm
      rw [hK', List.toFinset_cons]
      have hset : (docs.map Prod.fst).toFinset ∩ insert i rest.toFinset =
          insert i ((docs.map Prod.fst).toFinset.erase i ∩ rest.toFinset) := by
        ext a
        simp only [Finset.mem_inter, Finset.mem_insert, Finset.mem_erase]
        constructor
        · rintro ⟨haK, rfl | haR⟩
          · exact Or.inl rfl
          · by_cases hai : a = i
            · exact Or.inl hai
            · exact Or.inr ⟨⟨hai, haK⟩, haR⟩
        · rintro (rfl | ⟨⟨hai, haK⟩, haR⟩)
          · exact ⟨hiK', Or.inl rfl⟩
          · exact ⟨haK, Or.inr haR⟩
      rw [hset, Finset.card_insert_of_not_mem (by simp)]
    · rw [deleteDocs_cons, if_neg hp, ih docs hnd, List.toFinset_cons]
      congr 1
      ext a
      simp only [Finset.mem_inter, Finset.mem_insert]
      constructor
      · rintro ⟨haK, haR⟩
        exact ⟨haK, Or.inr haR⟩
      · rintro ⟨haK, rfl | haR⟩
        · exact absurd (any_fst_eq.2 (List.mem_toFinset.1 haK)) hp
        · exact ⟨haK, haR⟩

theorem deleteDocs_store {α : Type _} :
    ∀ (ids : List String) (docs : List (String × α)),
      (deleteDocs docs ids).1 = docs.filter (fun kv => decide (kv.1 ∉ ids)) := by
  intro ids
  induction ids with
  | nil =>
    intro docs
    show docs = _
    exact (List.filter_eq_self.2 (fun kv _ => decide_eq_true (List.not_mem_nil _))).symm
  | cons i rest ih =>
    intro docs
    by_cases hp : docs.any (fun kv => kv.1 == i) = true
    · rw [deleteDocs_cons, if_pos hp]
      show (deleteDocs (docs.filter (fun kv => kv.1 != i)) rest).1 = _
      rw [ih, List.filter_filter]
      refine List.filter_congr (fun kv _ => ?_)
      by_cases h : kv.1 = i
      · simp [h, List.mem_cons]
      · by_cases hr : kv.1 ∈ rest <;> simp [h, hr, List.mem_cons]
    · rw [deleteDocs_cons, if_neg hp, ih]
      have hne : ∀ kv ∈ docs, (kv.1 == i) = false := by
        intro kv hkv
        by_contra hcon
        exact hp (List.any_eq_true.2 ⟨kv, hkv,
          Bool.not_eq_false _ ▸ eq_true_of_ne_false hcon⟩)
      refine List.filter_congr (fun kv hkv => ?_)
      have h' : kv.1 ≠ i := by
        intro he
        have hf := hne kv hkv
        rw [he] at hf
        simp at hf
      simp [List.mem_cons, h']

/-- C8: `delete(doc_ids)` removes each listed id that is present, never fails
for missing ids, and returns the number of (distinct) listed ids present in
the store immediately before the call; deleting the same list of ids a second
time returns 0. -/
theorem claim_C8_delete_semantics :
    ∀ (α : Type) (docs : List (String × α)), (docs.map Prod.fst).Nodup →
      ∀ ids : List String,
        (deleteDocs docs ids).2 = ((docs.map Prod.fst).toFinset ∩ ids.toFinset).card
        ∧ (deleteDocs docs ids).1 = docs.filter (fun kv => decide (kv.1 ∉ ids))
        ∧ (deleteDocs (deleteDocs docs ids).1 ids).2 = 0 := by
  intro α docs hnd ids
  refine ⟨deleteDocs_count ids docs hnd, deleteDocs_store ids docs, ?_⟩
  rw [deleteDocs_store ids docs]
  have hnd2 : (((docs.filter (fun kv => decide (kv.1 ∉ ids))).map Prod.fst)).Nodup :=
    List.Nodup.sublist (List.Sublist.map Prod.fst (List.filter_sublist docs)) hnd
  rw [deleteDocs_count ids _ hnd2, Finset.card_eq_zero]
  ext a
  simp only [Finset.mem_inter, List.mem_toFinset, Finset.not_mem_empty, iff_false]
  rintro ⟨haK, haI⟩
  obtain ⟨kv, hkv, rfl⟩ := List.mem_map.1 haK
  exact absurd haI (of_decide_eq_true (List.mem_filter.1 hkv).2)

/-- Closed witness for C8: a two-document store and the id list ["a","c","a"]
(one present id listed twice, one missing id). -/
theorem claim_C8_witness :
    ((([("a", "x"), ("b", "y")] : List (String × String)).map Prod.fst).Nodup)
    ∧ ((deleteDocs ([("a", "x"), ("b", "y")] : List (String × String))
          ["a", "c", "a"]).2 =
        ((([("a", "x"), ("b", "y")] : List (String × String)).map
          Prod.fst).toFinset ∩ (["a", "c", "a"] : List String).toFinset).card
      ∧ (deleteDocs ([("a", "x"), ("b", "y")] : List (String × String))
          ["a", "c", "a"]).1 =
          ([("a", "x"), ("b", "y")] : List (String × String)).filter
            (fun kv => decide (kv.1 ∉ (["a", "c", "a"] : List String)))
      ∧ (deleteDocs (deleteDocs ([("a", "x"), ("b", "y")] : List (String × String))
          ["a", "c", "a"]).1 ["a", "c", "a"]).2 = 0) :=
  ⟨by decide, claim_C8_delete_semantics String [("a", "x"), ("b", "y")] (by decide)
    ["a", "c", "a"]⟩

/-! ### Category independence of the semantic strategy (C10) -/

/-- The observable (id, score) view of a semantic result list. -/
def semView (l : List ScoredProduct) : List (String × ℚ) :=
  l.map (fun r => (r.product.id, r.score))

/-- The score comparator carried over to the (id, score) view. -/
def pairLe (a b : String × ℚ) : Bool := decide (b.2 ≤ a.2)

theorem semanticText_category (p : Product) (c : String) :
    semanticText { p with category := c } = semanticText p := rfl

theorem semView_insSort (l : List ScoredProduct) :
    semView (insSort scoreGe l) = insSort pairLe (semView l) := by
  unfold semView
  exact insSort_map (fun r : ScoredProduct => (r.product.id, r.score))
    scoreGe pairLe (fun a b => rfl) l

theorem semanticCandidates_map_category (jit : Nat → ℚ) (products : List Product)
    (q : List Char) (catf : Product → String) :
    semanticCandidates jit (products.map (fun p => { p with category := catf p })) q =
      (semanticCandidates jit products q).map (fun r =>
        ⟨{ r.product with category := catf r.product }, r.score⟩) := by
  unfold semanticCandidates
  rw [List.enum_map, List.filterMap_map, List.map_filterMap]
  refine List.filterMap_congr (fun ip _ => ?_)
  rcases ip with ⟨i, p⟩
  simp only [Function.comp_apply, Prod.map_mk, id_eq]
  rw [semanticText_category]
  by_cases h : 0 < semPre (lowerStr q) (semanticText p)
  · rw [if_pos h, if_pos h]
    rfl
  · rw [if_neg h, if_neg h]
    rfl

/-- C10: the semantic strategy never reads the category field — changing every
product's category (arbitrarily, per product) leaves the semantic (id, score)
results unchanged for every query and jitter — while the keyword strategy does
read it: the query "necklaces" matches product "002" under keyword search
(only its category contains the word) yet semantic search returns no results
for it under any jitter. -/
theorem claim_C10_semantic_ignores_category :
    (∀ (jit : Nat → ℚ) (q : List Char) (products : List Product)
        (catf : Product → String),
        semView (semantic_search jit
            (products.map (fun p => { p with category := catf p })) q) =
          semView (semantic_search jit products q))
    ∧ (∃ r ∈ keyword_search PRODUCTS ("necklaces".data), r.product.id = "002")
    ∧ ∀ jit : Nat → ℚ, semantic_search jit PRODUCTS ("necklaces".data) = [] := by
  refine ⟨?_, by decide, ?_⟩
  · intro jit q products catf
    show semView (insSort scoreGe _) = semView (insSort scoreGe _)
    rw [semView_insSort, semView_insSort, semanticCandidates_map_category]
    congr 1
    unfold semView
    rw [List.map_map]
    exact List.map_congr_left (fun r _ => rfl)
  · intro jit
    show insSort scoreGe (semanticCandidates jit PRODUCTS ("necklaces".data)) = []
    have hz : ∀ p ∈ PRODUCTS,
        semPre (lowerStr ("necklaces".data)) (semanticText p) = 0 := by decide
    have hc : semanticCandidates jit PRODUCTS ("necklaces".data) = [] := by
      refine List.filterMap_eq_nil.2 (fun ip hip => ?_)
      have hmem : ip.2 ∈ PRODUCTS := by
        have h2 := List.mk_mem_enum_iff_getElem?.1 (show (ip.1, ip.2) ∈ PRODUCTS.enum from hip)
        obtain ⟨hlt, he⟩ := List.getElem?_eq_some.1 h2
        exact he ▸ List.getElem_mem hlt
      rw [if_neg (by rw [hz ip.2 hmem]; exact lt_irrefl 0)]
    rw [hc]
    rfl

end SearchLab
